import Mathlib

/-!
Shallow embedding of the EcoCor extractor's word-frequency engine
(`src/extractor/main.py`, function `process_text` and its helpers).

Python dictionaries are modelled as insertion-ordered association lists
(`List (String × α)`): assigning to an existing key updates the entry in
place, assigning to a fresh key appends at the end, exactly as CPython
dictionaries behave.  Python `set` iteration order (the `for word in
intersect` loop on line 141 of the source) depends on string hashing, so
the embedding is parametrised by a function `setIter` that chooses the
iteration order; theorems constrain it to be a permutation of the
canonical element list.  The spaCy lemmatizer and the HTTP fetch of the
word list are external collaborators: they enter the embedding as a
`lemmatize : String → List String` function and as the already parsed
`WordInfoMeta` value that `read_word_list` returns.
-/

namespace Extractor

/-- Mirrors the pydantic model `Segment` (fields `text`, `segment_id`). -/
structure Segment where
  text : String
  segment_id : String
deriving DecidableEq

/-- Mirrors the pydantic model `WordInfo` (fields `word`, `wikidata_ids`, `category`). -/
structure WordInfo where
  word : String
  wikidata_ids : List String
  category : String
deriving DecidableEq

/-- Mirrors the pydantic model `WordMetadata`; the `date` field is kept as a string. -/
structure WordMetadata where
  name : String
  description : String
  date : String
deriving DecidableEq

/-- Mirrors `WordInfoFrequency`: a `WordInfo` together with the per-segment
frequency map and the overall frequency. -/
structure WordInfoFrequency where
  word : String
  wikidata_ids : List String
  category : String
  segment_frequencies : List (String × Nat)
  overall_frequency : Nat
deriving DecidableEq

/-- Mirrors `WordInfoMeta`: the parsed word-list resource. -/
structure WordInfoMeta where
  metadata : WordMetadata
  word_list : List WordInfo
deriving DecidableEq

/-- Mirrors `WordInfoFrequencyMeta`: the value returned by `process_text`. -/
structure WordInfoFrequencyMeta where
  metadata : WordMetadata
  word_list : List WordInfoFrequency
deriving DecidableEq

/-- CPython dictionary assignment `d[k] = v` on an insertion-ordered
association list: an existing key keeps its position and receives the new
value, a fresh key is appended at the end. -/
def dictInsert {α : Type} : List (String × α) → String → α → List (String × α)
  | [], k, v => [(k, v)]
  | p :: t, k, v => if p.1 = k then (k, v) :: t else p :: dictInsert t k v

/-- CPython dictionary lookup `d[k]` (as an option; `None` for a missing key). -/
def dictGet? {α : Type} : List (String × α) → String → Option α
  | [], _ => none
  | p :: t, k => if p.1 = k then some p.2 else dictGet? t k

/-- The keys of a dictionary, in insertion order (`list(d.keys())`). -/
def dictKeys {α : Type} (d : List (String × α)) : List String :=
  d.map (fun p => p.1)

section DictLemmas

variable {α : Type}

@[simp] theorem dictKeys_nil : dictKeys ([] : List (String × α)) = [] := rfl

@[simp] theorem dictKeys_cons (p : String × α) (t : List (String × α)) :
    dictKeys (p :: t) = p.1 :: dictKeys t := rfl

@[simp] theorem dictKeys_append (d e : List (String × α)) :
    dictKeys (d ++ e) = dictKeys d ++ dictKeys e := by
  simp [dictKeys]

theorem mem_dictKeys {d : List (String × α)} {k : String} :
    k ∈ dictKeys d ↔ ∃ v, (k, v) ∈ d := by
  simp only [dictKeys, List.mem_map]
  constructor
  · rintro ⟨p, hp, rfl⟩; exact ⟨p.2, hp⟩
  · rintro ⟨v, hv⟩; exact ⟨(k, v), hv, rfl⟩

@[simp] theorem dictGet?_dictInsert_self (d : List (String × α)) (k : String) (v : α) :
    dictGet? (dictInsert d k v) k = some v := by
  induction d with
  | nil => simp [dictInsert, dictGet?]
  | cons p t ih =>
    by_cases h : p.1 = k
    · simp [dictInsert, dictGet?, h]
    · simp [dictInsert, dictGet?, h, ih]

theorem dictGet?_dictInsert_ne (d : List (String × α)) {j k : String} (v : α)
    (h : j ≠ k) : dictGet? (dictInsert d k v) j = dictGet? d j := by
  induction d with
  | nil => simp [dictInsert, dictGet?, Ne.symm h]
  | cons p t ih =>
    by_cases hp : p.1 = k
    · simp [dictInsert, dictGet?, hp, Ne.symm h]
    · simp [dictInsert, dictGet?, hp, ih]

theorem dictKeys_dictInsert (d : List (String × α)) (k : String) (v : α) :
    dictKeys (dictInsert d k v) =
      if k ∈ dictKeys d then dictKeys d else dictKeys d ++ [k] := by
  induction d with
  | nil => simp [dictInsert]
  | cons p t ih =>
    by_cases h : p.1 = k
    · simp [dictInsert, h]
    · have hne : ¬ k = p.1 := fun hh => h hh.symm
      by_cases hk : k ∈ dictKeys t
      · simp [dictInsert, h, hk, hne, ih]
      · simp [dictInsert, h, hk, hne, ih]

theorem mem_dictKeys_dictInsert (d : List (String × α)) (k j : String) (v : α) :
    j ∈ dictKeys (dictInsert d k v) ↔ j = k ∨ j ∈ dictKeys d := by
  rw [dictKeys_dictInsert]
  by_cases h : k ∈ dictKeys d
  · simp only [if_pos h]
    constructor
    · exact Or.inr
    · rintro (rfl | hj)
      · exact h
      · exact hj
  · simp [if_neg h, or_comm]

theorem dictInsert_of_not_mem {d : List (String × α)} {k : String} (v : α)
    (h : k ∉ dictKeys d) : dictInsert d k v = d ++ [(k, v)] := by
  induction d with
  | nil => simp [dictInsert]
  | cons p t ih =>
    simp only [dictKeys_cons, List.mem_cons] at h
    push_neg at h
    simp [dictInsert, Ne.symm h.1, ih h.2]

theorem mem_of_mem_dictInsert {d : List (String × α)} {k : String} {v : α}
    {p : String × α} (h : p ∈ dictInsert d k v) : p = (k, v) ∨ p ∈ d := by
  induction d with
  | nil => simp [dictInsert] at h; exact Or.inl h
  | cons q t ih =>
    by_cases hq : q.1 = k
    · simp only [dictInsert, if_pos hq, List.mem_cons] at h
      rcases h with h | h
      · exact Or.inl h
      · exact Or.inr (List.mem_cons_of_mem _ h)
    · simp only [dictInsert, if_neg hq, List.mem_cons] at h
      rcases h with h | h
      · exact Or.inr (by simp [h])
      · rcases ih h with h' | h'
        · exact Or.inl h'
        · exact Or.inr (List.mem_cons_of_mem _ h')

theorem dictInsert_ne_nil (d : List (String × α)) (k : String) (v : α) :
    dictInsert d k v ≠ [] := by
  cases d with
  | nil => simp [dictInsert]
  | cons p t =>
    by_cases h : p.1 = k <;> simp [dictInsert, h]

theorem dictGet?_eq_none_iff {d : List (String × α)} {k : String} :
    dictGet? d k = none ↔ k ∉ dictKeys d := by
  induction d with
  | nil => simp [dictGet?]
  | cons p t ih =>
    by_cases h : p.1 = k
    · simp [dictGet?, h]
    · simp [dictGet?, h, Ne.symm h, ih]

theorem mem_of_dictGet?_eq_some {d : List (String × α)} {k : String} {v : α}
    (h : dictGet? d k = some v) : (k, v) ∈ d := by
  induction d with
  | nil => simp [dictGet?] at h
  | cons p t ih =>
    by_cases hp : p.1 = k
    · simp only [dictGet?, if_pos hp, Option.some.injEq] at h
      subst h
      have : p = (k, p.2) := by
        cases p; simp_all
      rw [← this]
      exact List.mem_cons_self _ _
    · simp only [dictGet?, if_neg hp] at h
      exact List.mem_cons_of_mem _ (ih h)

theorem dictGet?_of_mem_of_nodup {d : List (String × α)} {k : String} {v : α}
    (hnd : (dictKeys d).Nodup) (h : (k, v) ∈ d) : dictGet? d k = some v := by
  induction d with
  | nil => simp at h
  | cons p t ih =>
    rcases List.mem_cons.mp h with h | h
    · simp [dictGet?, ← h]
    · have hk : k ∈ dictKeys t := mem_dictKeys.mpr ⟨v, h⟩
      have hp : p.1 ≠ k := by
        intro hh
        have : p.1 ∉ dictKeys t := (List.nodup_cons.mp (by simpa using hnd)).1
        exact this (hh ▸ hk)
      simp [dictGet?, hp, ih (List.nodup_cons.mp (by simpa using hnd)).2 h]

theorem eq_of_mem_of_fst_eq {d : List (String × α)} {p q : String × α}
    (hnd : (dictKeys d).Nodup) (hp : p ∈ d) (hq : q ∈ d) (h : p.1 = q.1) : p = q := by
  induction d with
  | nil => simp at hp
  | cons x t ih =>
    have hx : x.1 ∉ dictKeys t := (List.nodup_cons.mp (by simpa using hnd)).1
    rcases List.mem_cons.mp hp with hp' | hp' <;> rcases List.mem_cons.mp hq with hq' | hq'
    · rw [hp', hq']
    · exact absurd (mem_dictKeys.mpr ⟨q.2, by simpa using hq'⟩)
        (by rw [hp'] at h; rw [h] at hx; simpa using hx)
    · exact absurd (mem_dictKeys.mpr ⟨p.2, by simpa using hp'⟩)
        (by rw [hq'] at h; rw [← h] at hx; simpa using hx)
    · exact ih (List.nodup_cons.mp (by simpa using hnd)).2 hp' hq'

theorem nodup_dictKeys_dictInsert (d : List (String × α)) (k : String) (v : α)
    (hnd : (dictKeys d).Nodup) : (dictKeys (dictInsert d k v)).Nodup := by
  rw [dictKeys_dictInsert]
  by_cases h : k ∈ dictKeys d
  · simpa [h] using hnd
  · simp only [if_neg h]
    rw [List.nodup_append]
    refine ⟨hnd, List.nodup_singleton k, ?_⟩
    intro a ha hak
    rw [List.mem_singleton] at hak
    exact h (hak ▸ ha)

end DictLemmas

/-- The per-segment intersection `unique_words.intersection(vocabulary)` of
source lines 136-138, where `vocabulary = set(lemmatized_text)`.  The
elements are canonically listed by deduplicating the lemma sequence and
keeping the members of `unique_words`; the Python `set` iteration order of
line 141 is chosen by `setIter`, which theorems constrain to permute its
argument. -/
def segmentIntersect (setIter : List String → List String)
    (unique_words : List String) (lemmatized_text : List String) : List String :=
  setIter (lemmatized_text.dedup.filter (fun w => w ∈ unique_words))

/-- The `save frequencies` loop of source lines 141-146: for each `word` of
the intersection, set `word_to_segment_frq[word][segment_id] =
counted[word]`, creating the inner dictionary when missing.  `counted[word]`
is `Counter(lemmatized_text)[word]`, i.e. `lemmatized_text.count word`. -/
def saveFrequencies (segment_id : String) (lemmatized_text : List String)
    (d : List (String × List (String × Nat))) (ws : List String) :
    List (String × List (String × Nat)) :=
  ws.foldl
    (fun d word =>
      dictInsert d word
        (dictInsert ((dictGet? d word).getD []) segment_id (lemmatized_text.count word)))
    d

/-- One iteration of the annotation loop of source lines 127-146: process a
single `(segment_id, lemmatized_text)` pair. -/
def accStep (setIter : List String → List String) (unique_words : List String)
    (d : List (String × List (String × Nat))) (seg : String × List String) :
    List (String × List (String × Nat)) :=
  saveFrequencies seg.1 seg.2 d (segmentIntersect setIter unique_words seg.2)

/-- The annotation loop of source lines 125-146, folded over the segments
(already given as `(segment_id, lemmatized_text)` pairs, mirroring
`nlp.pipe` output zipped with the segment ids). -/
def accumulate (setIter : List String → List String) (unique_words : List String)
    (segs : List (String × List String)) : List (String × List (String × Nat)) :=
  segs.foldl (accStep setIter unique_words) []

/-- The zero-filling dictionary comprehension of source lines 151-156,
including the no-op key expression
`seg_id if seg_id in all_segment_ids else seg_id`. -/
def zeroFill (segment_frq : List (String × Nat)) (all_segment_ids : List String) :
    List (String × Nat) :=
  all_segment_ids.foldl
    (fun d seg_id =>
      dictInsert d (if seg_id ∈ all_segment_ids then seg_id else seg_id)
        ((dictGet? segment_frq seg_id).getD 0))
    []

/-- The homograph grouping loop of source lines 116-119: build
`word_to_word_info`, mapping each surface word to the word-list entries
carrying it, in their original relative order. -/
def buildWordToWordInfo (entries : List WordInfo) : List (String × List WordInfo) :=
  entries.foldl
    (fun d entry =>
      dictInsert d entry.word (((dictGet? d entry.word).getD []) ++ [entry]))
    []

/-- One iteration of the result loop of source lines 150-166: the
`WordInfoFrequency` records appended for one `(word, segment_frq)` item of
`word_to_segment_frq`. -/
def recordsFor (word_to_word_info : List (String × List WordInfo))
    (all_segment_ids : List String) (p : String × List (String × Nat)) :
    List WordInfoFrequency :=
  let segment_frq_zero_filled := zeroFill p.2 all_segment_ids
  let word_infos := (dictGet? word_to_word_info p.1).getD []
  let overall_frequency := (p.2.map (fun q => q.2)).sum
  word_infos.map
    (fun word_info =>
      { word := word_info.word
        wikidata_ids := word_info.wikidata_ids
        category := word_info.category
        segment_frequencies := segment_frq_zero_filled
        overall_frequency := overall_frequency })

/-- The engine `process_text` of source lines 112-170.  The fetched and
parsed word-list resource (`read_word_list`, line 113) is passed in as
`word_info_meta`; the spaCy pipeline selected by `setup_analysis_components`
is passed in as `lemmatize`; `setIter` fixes the Python `set` iteration
order used on line 141. -/
def processText (setIter : List String → List String) (lemmatize : String → List String)
    (segments : List Segment) (word_info_meta : WordInfoMeta) : WordInfoFrequencyMeta :=
  let word_to_word_info := buildWordToWordInfo word_info_meta.word_list
  let unique_words := word_info_meta.word_list.map (fun entry => entry.word)
  let word_to_segment_frq :=
    accumulate setIter unique_words
      (segments.map (fun s => (s.segment_id, lemmatize s.text)))
  let all_segment_ids := segments.map (fun s => s.segment_id)
  let word_info_frequency :=
    word_to_segment_frq.foldl
      (fun acc p => acc ++ recordsFor word_to_word_info all_segment_ids p) []
  { metadata := word_info_meta.metadata, word_list := word_info_frequency }

/-- A concrete deterministic lemmatizer used as a test fixture (the spec's
worked example: lemmas of segment text `t1` are `the oak fall`, of `t2` are
`birch and oak grow`). -/
def lemTable : String → List String := fun t =>
  if t = "t1" then ["the", "oak", "fall"]
  else if t = "t2" then ["birch", "and", "oak", "grow"]
  else []

/-- Concrete segments fixture. -/
def segsC : List Segment :=
  [{ text := "t1", segment_id := "s1" }, { text := "t2", segment_id := "s2" }]

/-- Fixture entry: `oak` as a plant. -/
def oakQ1 : WordInfo := { word := "oak", wikidata_ids := ["Q1"], category := "plant" }

/-- Fixture entry: `pine` (never occurs in the fixture segments). -/
def pineQ2 : WordInfo := { word := "pine", wikidata_ids := ["Q2"], category := "plant" }

/-- Fixture entry: `oak` as a tree — a homograph of `oakQ1`. -/
def oakQ3 : WordInfo := { word := "oak", wikidata_ids := ["Q3"], category := "tree" }

/-- Fixture entry: `birch`. -/
def birchQ4 : WordInfo := { word := "birch", wikidata_ids := ["Q4"], category := "plant" }

/-- Concrete parsed word-list fixture with a homograph pair for `oak`. -/
def wimC : WordInfoMeta :=
  { metadata := { name := "n", description := "d", date := "2024-01-01" }
    word_list := [oakQ1, pineQ2, oakQ3, birchQ4] }

/-- The record the engine emits for `birchQ4` on the fixture input. -/
def birchRec : WordInfoFrequency :=
  { word := "birch", wikidata_ids := ["Q4"], category := "plant"
    segment_frequencies := [("s1", 0), ("s2", 1)], overall_frequency := 1 }

/-- The record the engine emits for `oakQ1` on the fixture input. -/
def oakRecQ1 : WordInfoFrequency :=
  { word := "oak", wikidata_ids := ["Q1"], category := "plant"
    segment_frequencies := [("s1", 1), ("s2", 1)], overall_frequency := 2 }

section FoldLemmas

variable {α : Type}

theorem foldl_dictInsert_get (f : String → α) (ids : List String)
    (d : List (String × α)) (k : String) :
    dictGet? (ids.foldl (fun d s => dictInsert d s (f s)) d) k
      = if k ∈ ids then some (f k) else dictGet? d k := by
  induction ids generalizing d with
  | nil => simp
  | cons i t ih =>
    simp only [List.foldl_cons]
    rw [ih]
    by_cases hk : k ∈ t
    · simp [hk]
    · by_cases hki : k = i
      · subst hki
        simp [hk]
      · simp [hk, hki, dictGet?_dictInsert_ne d (f i) hki]

theorem foldl_dictInsert_of_nodup (f : String → α) (ids : List String)
    (d : List (String × α)) (hnd : ids.Nodup) (hfresh : ∀ s ∈ ids, s ∉ dictKeys d) :
    ids.foldl (fun d s => dictInsert d s (f s)) d = d ++ ids.map (fun s => (s, f s)) := by
  induction ids generalizing d with
  | nil => simp
  | cons i t ih =>
    simp only [List.foldl_cons, List.map_cons]
    have h2 : ∀ s ∈ t, s ∉ dictKeys (d ++ [(i, f i)]) := by
      intro s hs
      simp only [dictKeys_append, List.mem_append]
      push_neg
      constructor
      · exact hfresh s (List.mem_cons_of_mem _ hs)
      · simp only [dictKeys, List.map_cons, List.map_nil, List.mem_singleton]
        intro hh
        exact (List.nodup_cons.mp hnd).1 (hh ▸ hs)
    rw [dictInsert_of_not_mem (f i) (hfresh i (List.mem_cons_self _ _)),
      ih _ (List.nodup_cons.mp hnd).2 h2]
    simp

end FoldLemmas

theorem zeroFill_eq_foldl (segment_frq : List (String × Nat)) (ids : List String) :
    zeroFill segment_frq ids
      = ids.foldl (fun d s => dictInsert d s ((dictGet? segment_frq s).getD 0)) [] := by
  simp [zeroFill]

theorem dictGet?_zeroFill (segment_frq : List (String × Nat)) (ids : List String)
    (k : String) :
    dictGet? (zeroFill segment_frq ids) k
      = if k ∈ ids then some ((dictGet? segment_frq k).getD 0) else none := by
  rw [zeroFill_eq_foldl, foldl_dictInsert_get]
  simp [dictGet?]

theorem zeroFill_eq_map (segment_frq : List (String × Nat)) {ids : List String}
    (hnd : ids.Nodup) :
    zeroFill segment_frq ids = ids.map (fun s => (s, (dictGet? segment_frq s).getD 0)) := by
  rw [zeroFill_eq_foldl, foldl_dictInsert_of_nodup _ _ _ hnd (by simp)]
  simp

theorem sum_map_ite_eq (ids : List String) (k : String) (v : Nat) (g : String → Nat)
    (hnd : ids.Nodup) (hk : k ∈ ids) (hg : g k = 0) :
    (ids.map (fun s => if k = s then v else g s)).sum = v + (ids.map g).sum := by
  induction ids with
  | nil => simp at hk
  | cons i t ih =>
    by_cases hik : i = k
    · subst hik
      have hit : i ∉ t := (List.nodup_cons.mp hnd).1
      have hmap : t.map (fun s => if i = s then v else g s) = t.map g := by
        apply List.map_congr_left
        intro s hs
        have hne : ¬ i = s := fun hh => hit (by rwa [← hh] at hs)
        rw [if_neg hne]
      simp only [List.map_cons, List.sum_cons, hmap, hg]
      simp
    · have hkt : k ∈ t := by
        rcases List.mem_cons.mp hk with h | h
        · exact absurd h.symm hik
        · exact h
      have hki : ¬ k = i := fun hh => hik hh.symm
      simp only [List.map_cons, List.sum_cons, ih (List.nodup_cons.mp hnd).2 hkt]
      rw [if_neg hki]
      omega

theorem sum_zeroFill (sparse : List (String × Nat)) (ids : List String)
    (hnd : ids.Nodup) (hknd : (dictKeys sparse).Nodup)
    (hsub : ∀ s ∈ dictKeys sparse, s ∈ ids) :
    ((zeroFill sparse ids).map (fun p => p.2)).sum = (sparse.map (fun p => p.2)).sum := by
  rw [zeroFill_eq_map _ hnd, List.map_map]
  simp only [Function.comp_def]
  induction sparse with
  | nil =>
    simp only [List.map_nil, List.sum_nil]
    apply List.sum_eq_zero
    intro x hx
    rcases List.mem_map.mp hx with ⟨s, _, rfl⟩
    simp [dictGet?]
  | cons q rest ih =>
    have hq1 : q.1 ∉ dictKeys rest := (List.nodup_cons.mp (by simpa using hknd)).1
    have hpt : ∀ s ∈ ids,
        (fun s => (dictGet? (q :: rest) s).getD 0) s
          = if q.1 = s then q.2 else (dictGet? rest s).getD 0 := by
      intro s _
      by_cases h : q.1 = s <;> simp [dictGet?, h]
    rw [List.map_congr_left hpt]
    rw [sum_map_ite_eq ids q.1 q.2 _ hnd (hsub q.1 (by simp)) ?hz]
    case hz =>
      have : dictGet? rest q.1 = none := dictGet?_eq_none_iff.mpr hq1
      simp [this]
    rw [ih (List.nodup_cons.mp (by simpa using hknd)).2
      (fun s hs => hsub s (by simp [hs]))]
    simp

theorem sum_map_filter_of_zero {β : Type} (l : List β) (q : β → Bool) (g : β → Nat)
    (h : ∀ x ∈ l, ¬ q x = true → g x = 0) :
    ((l.filter q).map g).sum = (l.map g).sum := by
  induction l with
  | nil => rfl
  | cons x t ih =>
    rw [List.filter_cons]
    by_cases hx : q x = true
    · rw [if_pos hx]
      simp only [List.map_cons, List.sum_cons]
      rw [ih (fun y hy hqy => h y (List.mem_cons_of_mem _ hy) hqy)]
    · rw [if_neg hx]
      simp only [List.map_cons, List.sum_cons]
      rw [ih (fun y hy hqy => h y (List.mem_cons_of_mem _ hy) hqy),
        h x (List.mem_cons_self _ _) hx]
      simp

section IntersectLemmas

variable {setIter : List String → List String}

theorem mem_segmentIntersect (hperm : ∀ l, List.Perm (setIter l) l)
    (uw lem : List String) (w : String) :
    w ∈ segmentIntersect setIter uw lem ↔ w ∈ lem ∧ w ∈ uw := by
  unfold segmentIntersect
  rw [(hperm _).mem_iff]
  simp [List.mem_filter, List.mem_dedup]

theorem nodup_segmentIntersect (hperm : ∀ l, List.Perm (setIter l) l)
    (uw lem : List String) : (segmentIntersect setIter uw lem).Nodup := by
  unfold segmentIntersect
  exact ((hperm _).nodup_iff).mpr ((List.nodup_dedup lem).filter _)

end IntersectLemmas

theorem saveFrequencies_cons (sid : String) (lem : List String)
    (d : List (String × List (String × Nat))) (x : String) (t : List String) :
    saveFrequencies sid lem d (x :: t)
      = saveFrequencies sid lem
          (dictInsert d x (dictInsert ((dictGet? d x).getD []) sid (lem.count x))) t := rfl

theorem dictGet?_saveFrequencies (sid : String) (lem : List String)
    (d : List (String × List (String × Nat))) (ws : List String) (hnd : ws.Nodup)
    (w : String) :
    dictGet? (saveFrequencies sid lem d ws) w
      = if w ∈ ws then
          some (dictInsert ((dictGet? d w).getD []) sid (lem.count w))
        else dictGet? d w := by
  induction ws generalizing d with
  | nil => simp [saveFrequencies]
  | cons x t ih =>
    rw [saveFrequencies_cons, ih _ (List.nodup_cons.mp hnd).2]
    by_cases hwt : w ∈ t
    · have hwx : w ≠ x := fun hh => (List.nodup_cons.mp hnd).1 (hh ▸ hwt)
      rw [if_pos hwt, if_pos (List.mem_cons_of_mem _ hwt),
        dictGet?_dictInsert_ne _ _ hwx]
    · rw [if_neg hwt]
      by_cases hwx : w = x
      · subst hwx
        rw [dictGet?_dictInsert_self, if_pos (List.mem_cons_self _ _)]
      · rw [dictGet?_dictInsert_ne _ _ hwx, if_neg (by simp [hwx, hwt])]

theorem mem_dictKeys_saveFrequencies (sid : String) (lem : List String)
    (d : List (String × List (String × Nat))) (ws : List String) (w : String) :
    w ∈ dictKeys (saveFrequencies sid lem d ws) ↔ w ∈ dictKeys d ∨ w ∈ ws := by
  induction ws generalizing d with
  | nil => simp [saveFrequencies]
  | cons x t ih =>
    rw [saveFrequencies_cons, ih, mem_dictKeys_dictInsert]
    simp only [List.mem_cons]
    tauto

theorem nodup_dictKeys_saveFrequencies (sid : String) (lem : List String)
    (d : List (String × List (String × Nat))) (ws : List String)
    (h : (dictKeys d).Nodup) : (dictKeys (saveFrequencies sid lem d ws)).Nodup := by
  induction ws generalizing d with
  | nil => exact h
  | cons x t ih =>
    rw [saveFrequencies_cons]
    exact ih _ (nodup_dictKeys_dictInsert _ _ _ h)

theorem dictKeys_saveFrequencies_extend (sid : String) (lem : List String)
    (d : List (String × List (String × Nat))) (ws : List String) :
    ∃ tl, dictKeys (saveFrequencies sid lem d ws) = dictKeys d ++ tl := by
  induction ws generalizing d with
  | nil => exact ⟨[], by simp [saveFrequencies]⟩
  | cons x t ih =>
    rw [saveFrequencies_cons]
    rcases ih (dictInsert d x (dictInsert ((dictGet? d x).getD []) sid (lem.count x)))
      with ⟨tl, htl⟩
    rw [htl, dictKeys_dictInsert]
    by_cases h : x ∈ dictKeys d
    · rw [if_pos h]
      exact ⟨tl, rfl⟩
    · rw [if_neg h]
      exact ⟨[x] ++ tl, by simp⟩

section AccumulateLemmas

variable {setIter : List String → List String}

theorem mem_dictKeys_foldl_accStep (hperm : ∀ l, List.Perm (setIter l) l)
    (uw : List String) (segs : List (String × List String))
    (d : List (String × List (String × Nat))) (w : String) :
    w ∈ dictKeys (segs.foldl (accStep setIter uw) d) ↔
      w ∈ dictKeys d ∨ (w ∈ uw ∧ ∃ p ∈ segs, w ∈ p.2) := by
  induction segs generalizing d with
  | nil => simp
  | cons seg t ih =>
    simp only [List.foldl_cons]
    rw [ih]
    unfold accStep
    rw [mem_dictKeys_saveFrequencies, mem_segmentIntersect hperm]
    simp only [List.mem_cons]
    constructor
    · rintro ((h | ⟨h1, h2⟩) | ⟨h1, p, hp, h2⟩)
      · exact Or.inl h
      · exact Or.inr ⟨h2, seg, Or.inl rfl, h1⟩
      · exact Or.inr ⟨h1, p, Or.inr hp, h2⟩
    · rintro (h | ⟨h1, p, (rfl | hp), h2⟩)
      · exact Or.inl (Or.inl h)
      · exact Or.inl (Or.inr ⟨h2, h1⟩)
      · exact Or.inr ⟨h1, p, hp, h2⟩

theorem mem_dictKeys_accumulate (hperm : ∀ l, List.Perm (setIter l) l)
    (uw : List String) (segs : List (String × List String)) (w : String) :
    w ∈ dictKeys (accumulate setIter uw segs) ↔ w ∈ uw ∧ ∃ p ∈ segs, w ∈ p.2 := by
  unfold accumulate
  rw [mem_dictKeys_foldl_accStep hperm]
  simp

theorem nodup_dictKeys_foldl_accStep (uw : List String)
    (segs : List (String × List String)) (d : List (String × List (String × Nat)))
    (hnd : (dictKeys d).Nodup) :
    (dictKeys (segs.foldl (accStep setIter uw) d)).Nodup := by
  induction segs generalizing d with
  | nil => exact hnd
  | cons seg t ih =>
    simp only [List.foldl_cons]
    exact ih _ (nodup_dictKeys_saveFrequencies _ _ _ _ hnd)

theorem nodup_dictKeys_accumulate (uw : List String)
    (segs : List (String × List String)) :
    (dictKeys (accumulate setIter uw segs)).Nodup :=
  nodup_dictKeys_foldl_accStep uw segs [] List.nodup_nil

theorem dictKeys_foldl_accStep_extend (uw : List String)
    (segs : List (String × List String)) (d : List (String × List (String × Nat))) :
    ∃ tl, dictKeys (segs.foldl (accStep setIter uw) d) = dictKeys d ++ tl := by
  induction segs generalizing d with
  | nil => exact ⟨[], by simp⟩
  | cons seg t ih =>
    simp only [List.foldl_cons]
    rcases ih (accStep setIter uw d seg) with ⟨tl, htl⟩
    rcases dictKeys_saveFrequencies_extend seg.1 seg.2 d
      (segmentIntersect setIter uw seg.2) with ⟨tl2, htl2⟩
    exact ⟨tl2 ++ tl, by rw [htl]; unfold accStep; rw [htl2, List.append_assoc]⟩

theorem accStep_apply (uw : List String) (d : List (String × List (String × Nat)))
    (seg : String × List String) :
    accStep setIter uw d seg
      = saveFrequencies seg.1 seg.2 d (segmentIntersect setIter uw seg.2) := rfl

theorem dictGet?_accumulate (hperm : ∀ l, List.Perm (setIter l) l)
    (uw : List String) (segs : List (String × List String))
    (hnd : (segs.map (fun p => p.1)).Nodup) (w : String) :
    dictGet? (accumulate setIter uw segs) w
      = if w ∈ uw ∧ (segs.filter (fun p => w ∈ p.2)) ≠ [] then
          some ((segs.filter (fun p => w ∈ p.2)).map (fun p => (p.1, p.2.count w)))
        else none := by
  induction segs using List.reverseRecOn with
  | nil =>
    simp [accumulate, dictGet?]
  | append_singleton t seg ih =>
    have hndt : (t.map (fun p => p.1)).Nodup := by
      rw [List.map_append] at hnd
      exact (List.nodup_append.mp hnd).1
    have hfresh : seg.1 ∉ (t.map (fun p => p.1)) := by
      rw [List.map_append] at hnd
      rcases List.nodup_append.mp hnd with ⟨_, _, hdisj⟩
      intro hmem
      exact hdisj hmem (by simp)
    unfold accumulate at *
    rw [List.foldl_append]
    simp only [List.foldl_cons, List.foldl_nil]
    rw [accStep_apply]
    rw [dictGet?_saveFrequencies _ _ _ _ (nodup_segmentIntersect hperm _ _),
      List.filter_append]
    by_cases hw : w ∈ segmentIntersect setIter uw seg.2
    · rw [if_pos hw]
      rcases (mem_segmentIntersect hperm _ _ _).mp hw with ⟨hwl, hwu⟩
      have hfil : List.filter (fun p => w ∈ p.2) [seg] = [seg] := by
        simp [List.filter, hwl]
      rw [hfil, ih hndt]
      by_cases hc : w ∈ uw ∧ (t.filter (fun p => w ∈ p.2)) ≠ []
      · rw [if_pos hc]
        simp only [Option.getD_some]
        have hkeys : seg.1 ∉ dictKeys ((t.filter (fun p => w ∈ p.2)).map
            (fun p => (p.1, p.2.count w))) := by
          intro hmem
          apply hfresh
          unfold dictKeys at hmem
          rw [List.map_map] at hmem
          rcases List.mem_map.mp hmem with ⟨p, hp, hp1⟩
          exact List.mem_map.mpr ⟨p, List.mem_of_mem_filter hp, hp1⟩
        rw [dictInsert_of_not_mem _ hkeys]
        rw [if_pos ⟨hwu, by simp⟩]
        simp [List.map_append, List.count]
      · rw [if_neg hc]
        have hfil2 : (t.filter (fun p => w ∈ p.2)) = [] := by
          by_contra hne
          exact hc ⟨hwu, hne⟩
        rw [hfil2]
        simp only [Option.getD_none, List.nil_append]
        rw [if_pos ⟨hwu, by simp⟩]
        simp [dictInsert, List.count]
    · rw [if_neg hw]
      rw [ih hndt]
      by_cases hwu : w ∈ uw
      · have hwl : w ∉ seg.2 := fun hwl =>
          hw ((mem_segmentIntersect hperm _ _ _).mpr ⟨hwl, hwu⟩)
        have hfil : List.filter (fun p => w ∈ p.2) [seg] = [] := by
          simp [List.filter, hwl]
        rw [hfil, List.append_nil]
      · rw [if_neg (fun hc => hwu hc.1), if_neg (fun hc => hwu hc.1)]

theorem saveFrequencies_invariant (sid : String) (lem : List String)
    (allIds : List String) (hsid : sid ∈ allIds) (ws : List String)
    (hws : ∀ x ∈ ws, x ∈ lem) (d : List (String × List (String × Nat)))
    (hd : ∀ p ∈ d, p.2 ≠ [] ∧ ∀ q ∈ p.2, 1 ≤ q.2 ∧ q.1 ∈ allIds) :
    ∀ p ∈ saveFrequencies sid lem d ws,
      p.2 ≠ [] ∧ ∀ q ∈ p.2, 1 ≤ q.2 ∧ q.1 ∈ allIds := by
  induction ws generalizing d with
  | nil => exact hd
  | cons x t ih =>
    rw [saveFrequencies_cons]
    apply ih (fun y hy => hws y (List.mem_cons_of_mem _ hy))
    intro p hp
    rcases mem_of_mem_dictInsert hp with rfl | hp'
    · refine ⟨dictInsert_ne_nil _ _ _, ?_⟩
      intro q hq
      rcases mem_of_mem_dictInsert hq with rfl | hq'
      · exact ⟨List.count_pos_iff.mpr (hws x (List.mem_cons_self _ _)), hsid⟩
      · cases hsub : dictGet? d x with
        | none =>
          rw [hsub] at hq'
          simp at hq'
        | some sub =>
          rw [hsub] at hq'
          simp only [Option.getD_some] at hq'
          exact (hd (x, sub) (mem_of_dictGet?_eq_some hsub)).2 q hq'
    · exact hd p hp'

theorem accumulate_invariant {setIter : List String → List String}
    (hperm : ∀ l, List.Perm (setIter l) l) (uw : List String) (allIds : List String)
    (segs : List (String × List String)) (hids : ∀ p ∈ segs, p.1 ∈ allIds)
    (d : List (String × List (String × Nat)))
    (hd : ∀ p ∈ d, p.2 ≠ [] ∧ ∀ q ∈ p.2, 1 ≤ q.2 ∧ q.1 ∈ allIds) :
    ∀ p ∈ segs.foldl (accStep setIter uw) d,
      p.2 ≠ [] ∧ ∀ q ∈ p.2, 1 ≤ q.2 ∧ q.1 ∈ allIds := by
  induction segs generalizing d with
  | nil => exact hd
  | cons seg t ih =>
    simp only [List.foldl_cons]
    apply ih (fun p hp => hids p (List.mem_cons_of_mem _ hp))
    rw [accStep_apply]
    apply saveFrequencies_invariant _ _ _ (hids seg (List.mem_cons_self _ _)) _ ?hws _ hd
    case hws =>
      intro x hx
      exact ((mem_segmentIntersect hperm _ _ _).mp hx).1

theorem dictGet?_buildWordToWordInfo (entries : List WordInfo) (w : String) :
    dictGet? (buildWordToWordInfo entries) w
      = if (entries.filter (fun e => e.word = w)) = [] then none
        else some (entries.filter (fun e => e.word = w)) := by
  induction entries using List.reverseRecOn with
  | nil => simp [buildWordToWordInfo, dictGet?]
  | append_singleton t e ih =>
    unfold buildWordToWordInfo at *
    rw [List.foldl_append]
    simp only [List.foldl_cons, List.foldl_nil]
    rw [List.filter_append]
    by_cases hw : e.word = w
    · have hfil : List.filter (fun x => decide (x.word = w)) [e] = [e] := by simp [hw]
      rw [hfil, hw, dictGet?_dictInsert_self, ih]
      by_cases hft : List.filter (fun x => decide (x.word = w)) t = []
      · rw [hft]
        simp
      · rw [if_neg hft]
        simp
    · have hfil : List.filter (fun x => decide (x.word = w)) [e] = [] := by simp [hw]
      rw [hfil, List.append_nil]
      rw [dictGet?_dictInsert_ne _ _ (fun hh => hw hh.symm), ih]

theorem word_of_mem_buildWordToWordInfo (entries : List WordInfo) (w : String)
    (wi : WordInfo) (hwi : wi ∈ (dictGet? (buildWordToWordInfo entries) w).getD []) :
    wi.word = w := by
  rw [dictGet?_buildWordToWordInfo] at hwi
  by_cases h : entries.filter (fun e => e.word = w) = []
  · simp [h] at hwi
  · simp only [if_neg h, Option.getD_some] at hwi
    have := List.of_mem_filter hwi
    simpa using this

theorem foldl_append_eq_flatten {β γ : Type} (L : List β) (g : β → List γ) (acc : List γ) :
    L.foldl (fun a p => a ++ g p) acc = acc ++ (L.map g).flatten := by
  induction L generalizing acc with
  | nil => simp
  | cons x t ih => simp [ih]

theorem processText_word_list (setIter : List String → List String)
    (lemmatize : String → List String) (segments : List Segment)
    (word_info_meta : WordInfoMeta) :
    (processText setIter lemmatize segments word_info_meta).word_list
      = ((accumulate setIter (word_info_meta.word_list.map (fun e => e.word))
            (segments.map (fun s => (s.segment_id, lemmatize s.text)))).map
          (recordsFor (buildWordToWordInfo word_info_meta.word_list)
            (segments.map (fun s => s.segment_id)))).flatten := by
  simp only [processText]
  rw [foldl_append_eq_flatten]
  simp

theorem mem_recordsFor_iff (w2wi : List (String × List WordInfo)) (ids : List String)
    (p : String × List (String × Nat)) (r : WordInfoFrequency) :
    r ∈ recordsFor w2wi ids p ↔
      ∃ wi ∈ (dictGet? w2wi p.1).getD [],
        r = { word := wi.word, wikidata_ids := wi.wikidata_ids, category := wi.category,
              segment_frequencies := zeroFill p.2 ids,
              overall_frequency := (p.2.map (fun q => q.2)).sum } := by
  unfold recordsFor
  simp only [List.mem_map]
  constructor
  · rintro ⟨wi, hwi, rfl⟩
    exact ⟨wi, hwi, rfl⟩
  · rintro ⟨wi, hwi, rfl⟩
    exact ⟨wi, hwi, rfl⟩

theorem mem_processText_word_list_iff (setIter : List String → List String)
    (lemmatize : String → List String) (segments : List Segment)
    (word_info_meta : WordInfoMeta) (r : WordInfoFrequency) :
    r ∈ (processText setIter lemmatize segments word_info_meta).word_list ↔
      ∃ p ∈ accumulate setIter (word_info_meta.word_list.map (fun e => e.word))
          (segments.map (fun s => (s.segment_id, lemmatize s.text))),
        r ∈ recordsFor (buildWordToWordInfo word_info_meta.word_list)
            (segments.map (fun s => s.segment_id)) p := by
  rw [processText_word_list]
  rw [List.mem_flatten]
  constructor
  · rintro ⟨l, hl, hr⟩
    rcases List.mem_map.mp hl with ⟨p, hp, rfl⟩
    exact ⟨p, hp, hr⟩
  · rintro ⟨p, hp, hr⟩
    exact ⟨_, List.mem_map.mpr ⟨p, hp, rfl⟩, hr⟩

end AccumulateLemmas

theorem accumulate_nil_uw {setIter : List String → List String}
    (hperm : ∀ l, List.Perm (setIter l) l) (segs : List (String × List String)) :
    accumulate setIter [] segs = [] := by
  unfold accumulate
  induction segs with
  | nil => rfl
  | cons seg t ih =>
    simp only [List.foldl_cons]
    rw [accStep_apply]
    have hnil : segmentIntersect setIter [] seg.2 = [] := by
      unfold segmentIntersect
      have hfil : seg.2.dedup.filter (fun w => w ∈ ([] : List String)) = [] := by
        simp
      rw [hfil]
      exact (hperm []).eq_nil
    rw [hnil]
    exact ih

theorem snd_of_mem_accumulate {setIter : List String → List String}
    (hperm : ∀ l, List.Perm (setIter l) l) (uw : List String)
    (segs : List (String × List String)) (hnd : (segs.map (fun p => p.1)).Nodup)
    (p : String × List (String × Nat)) (hp : p ∈ accumulate setIter uw segs) :
    p.2 = (segs.filter (fun q => p.1 ∈ q.2)).map (fun q => (q.1, q.2.count p.1)) := by
  have hka := @nodup_dictKeys_accumulate setIter uw segs
  have hmem : (p.1, p.2) ∈ accumulate setIter uw segs := by
    cases p
    exact hp
  have hget := dictGet?_of_mem_of_nodup hka hmem
  rw [dictGet?_accumulate hperm uw segs hnd] at hget
  by_cases hc : p.1 ∈ uw ∧ (segs.filter (fun q => p.1 ∈ q.2)) ≠ []
  · rw [if_pos hc] at hget
    simp only [Option.some.injEq] at hget
    exact hget.symm
  · rw [if_neg hc] at hget
    exact absurd hget (by simp)

/-- C1: for every emitted record, the keys of `segment_frequencies` are
exactly the input segment ids (here: equal as lists, which implies equality
as sets), assuming segment ids are unique; a segment in which the record's
word does not occur is present with count `0`. -/
theorem c1_zero_fill (setIter : List String → List String)
    (lemmatize : String → List String) (segments : List Segment)
    (wim : WordInfoMeta) (hperm : ∀ l, List.Perm (setIter l) l)
    (hnd : (segments.map (fun s => s.segment_id)).Nodup)
    (r : WordInfoFrequency)
    (hr : r ∈ (processText setIter lemmatize segments wim).word_list) :
    dictKeys r.segment_frequencies = segments.map (fun s => s.segment_id)
      ∧ ∀ s ∈ segments, r.word ∉ lemmatize s.text →
          dictGet? r.segment_frequencies s.segment_id = some 0 := by
  rcases (mem_processText_word_list_iff setIter lemmatize segments wim r).mp hr
    with ⟨p, hp, hrec⟩
  rcases (mem_recordsFor_iff _ _ _ _).mp hrec with ⟨wi, hwi, rfl⟩
  have hnd' : ((segments.map (fun s => (s.segment_id, lemmatize s.text))).map
      (fun q => q.1)).Nodup := by
    rw [List.map_map]
    simpa using hnd
  constructor
  · show dictKeys (zeroFill p.2 (segments.map (fun s => s.segment_id))) = _
    rw [zeroFill_eq_map _ hnd]
    unfold dictKeys
    rw [List.map_map]
    simp
  · intro s hs hnot
    show dictGet? (zeroFill p.2 (segments.map (fun s => s.segment_id)))
      s.segment_id = some 0
    rw [dictGet?_zeroFill, if_pos (List.mem_map.mpr ⟨s, hs, rfl⟩)]
    have hwd : wi.word = p.1 := word_of_mem_buildWordToWordInfo _ _ _ hwi
    have hsnd := snd_of_mem_accumulate hperm _ _ hnd' p hp
    have hnone : dictGet? p.2 s.segment_id = none := by
      rw [dictGet?_eq_none_iff, hsnd]
      intro hmemk
      unfold dictKeys at hmemk
      rw [List.map_map] at hmemk
      rcases List.mem_map.mp hmemk with ⟨q, hq, hq1⟩
      have hq' : q ∈ segments.map (fun s => (s.segment_id, lemmatize s.text)) :=
        List.mem_of_mem_filter hq
      have hqw : p.1 ∈ q.2 := by
        have := List.of_mem_filter hq
        simpa using this
      have hndk : (dictKeys (segments.map
          (fun s => (s.segment_id, lemmatize s.text)))).Nodup := hnd'
      have heq : q = (s.segment_id, lemmatize s.text) := by
        apply eq_of_mem_of_fst_eq hndk hq' (List.mem_map.mpr ⟨s, hs, rfl⟩)
        exact hq1
      rw [heq] at hqw
      rw [← hwd] at hqw
      exact hnot hqw
    rw [hnone]
    rfl

/-- C2: for every emitted record (with unique segment ids),
`overall_frequency` equals the sum of the zero-filled
`segment_frequencies` values, and equals the word's total occurrence count
summed over all segments' lemma sequences. -/
theorem c2_conservation (setIter : List String → List String)
    (lemmatize : String → List String) (segments : List Segment)
    (wim : WordInfoMeta) (hperm : ∀ l, List.Perm (setIter l) l)
    (hnd : (segments.map (fun s => s.segment_id)).Nodup)
    (r : WordInfoFrequency)
    (hr : r ∈ (processText setIter lemmatize segments wim).word_list) :
    r.overall_frequency = (r.segment_frequencies.map (fun q => q.2)).sum
      ∧ r.overall_frequency
          = (segments.map (fun s => (lemmatize s.text).count r.word)).sum := by
  rcases (mem_processText_word_list_iff setIter lemmatize segments wim r).mp hr
    with ⟨p, hp, hrec⟩
  rcases (mem_recordsFor_iff _ _ _ _).mp hrec with ⟨wi, hwi, rfl⟩
  have hnd' : ((segments.map (fun s => (s.segment_id, lemmatize s.text))).map
      (fun q => q.1)).Nodup := by
    rw [List.map_map]
    simpa using hnd
  have hwd : wi.word = p.1 := word_of_mem_buildWordToWordInfo _ _ _ hwi
  have hsnd := snd_of_mem_accumulate hperm _ _ hnd' p hp
  have hknd : (dictKeys p.2).Nodup := by
    rw [hsnd]
    unfold dictKeys
    rw [List.map_map]
    exact ((List.filter_sublist _).map _).nodup hnd'
  have hsub : ∀ s ∈ dictKeys p.2, s ∈ segments.map (fun s => s.segment_id) := by
    rw [hsnd]
    intro s hsk
    unfold dictKeys at hsk
    rw [List.map_map] at hsk
    rcases List.mem_map.mp hsk with ⟨q, hq, rfl⟩
    have hq' := List.mem_of_mem_filter hq
    rcases List.mem_map.mp hq' with ⟨s0, hs0, rfl⟩
    exact List.mem_map.mpr ⟨s0, hs0, rfl⟩
  constructor
  · show (p.2.map (fun q => q.2)).sum
      = ((zeroFill p.2 (segments.map (fun s => s.segment_id))).map (fun q => q.2)).sum
    exact (sum_zeroFill p.2 _ hnd hknd hsub).symm
  · show (p.2.map (fun q => q.2)).sum
      = (segments.map (fun s => (lemmatize s.text).count wi.word)).sum
    rw [hsnd, List.map_map]
    have hz : ∀ x ∈ segments.map (fun s => (s.segment_id, lemmatize s.text)),
        ¬ (decide (p.1 ∈ x.2)) = true → ((fun q => (q.1, q.2.count p.1)) x).2 = 0 := by
      intro x _ hqx
      simp only [decide_eq_true_eq] at hqx
      simp only []
      exact List.count_eq_zero.mpr hqx
    have := sum_map_filter_of_zero
      (segments.map (fun s => (s.segment_id, lemmatize s.text)))
      (fun q => decide (p.1 ∈ q.2))
      (fun q => ((fun q => (q.1, q.2.count p.1)) q).2) hz
    simp only [Function.comp_def] at this ⊢
    rw [this, List.map_map, hwd]
    simp [Function.comp_def]

theorem word_of_mem_recordsFor (entries : List WordInfo) (ids : List String)
    (p : String × List (String × Nat)) (r : WordInfoFrequency)
    (hr : r ∈ recordsFor (buildWordToWordInfo entries) ids p) : r.word = p.1 := by
  rcases (mem_recordsFor_iff _ _ _ _).mp hr with ⟨wi, hwi, rfl⟩
  exact word_of_mem_buildWordToWordInfo _ _ _ hwi

theorem record_exists_of_occurs (setIter : List String → List String)
    (lemmatize : String → List String) (segments : List Segment)
    (wim : WordInfoMeta) (hperm : ∀ l, List.Perm (setIter l) l)
    (e : WordInfo) (he : e ∈ wim.word_list)
    (hocc : ∃ s ∈ segments, e.word ∈ lemmatize s.text) :
    ∃ r ∈ (processText setIter lemmatize segments wim).word_list,
      r.word = e.word ∧ r.wikidata_ids = e.wikidata_ids ∧ r.category = e.category := by
  rcases hocc with ⟨s, hs, hsl⟩
  have hk : e.word ∈ dictKeys (accumulate setIter
      (wim.word_list.map (fun x => x.word))
      (segments.map (fun x => (x.segment_id, lemmatize x.text)))) := by
    rw [mem_dictKeys_accumulate hperm]
    exact ⟨List.mem_map.mpr ⟨e, he, rfl⟩,
      (s.segment_id, lemmatize s.text), List.mem_map.mpr ⟨s, hs, rfl⟩, hsl⟩
  rcases mem_dictKeys.mp hk with ⟨sub, hsub⟩
  have hwe : e ∈ (dictGet? (buildWordToWordInfo wim.word_list) e.word).getD [] := by
    rw [dictGet?_buildWordToWordInfo]
    have hmem : e ∈ wim.word_list.filter (fun x => x.word = e.word) :=
      List.mem_filter.mpr ⟨he, by simp⟩
    have hne : wim.word_list.filter (fun x => x.word = e.word) ≠ [] := by
      intro hnil
      rw [hnil] at hmem
      simp at hmem
    rw [if_neg hne]
    simpa using hmem
  refine ⟨_, (mem_processText_word_list_iff setIter lemmatize segments wim _).mpr
    ⟨(e.word, sub), hsub, (mem_recordsFor_iff _ _ _ _).mpr ⟨e, hwe, rfl⟩⟩, rfl, rfl, rfl⟩

/-- C3: a word whose total occurrence count across all segments is zero
never appears in the output; a word-list entry whose word occurs at least
once is emitted; and no record with all-zero counts is ever produced. -/
theorem c3_omission (setIter : List String → List String)
    (lemmatize : String → List String) (segments : List Segment)
    (wim : WordInfoMeta) (hperm : ∀ l, List.Perm (setIter l) l) :
    (∀ w : String,
        (segments.map (fun s => (lemmatize s.text).count w)).sum = 0 →
        ∀ r ∈ (processText setIter lemmatize segments wim).word_list, r.word ≠ w)
      ∧ (∀ e ∈ wim.word_list, (∃ s ∈ segments, e.word ∈ lemmatize s.text) →
          ∃ r ∈ (processText setIter lemmatize segments wim).word_list,
            r.word = e.word ∧ r.wikidata_ids = e.wikidata_ids
              ∧ r.category = e.category)
      ∧ (∀ r ∈ (processText setIter lemmatize segments wim).word_list,
          ∃ q ∈ r.segment_frequencies, 1 ≤ q.2) := by
  refine ⟨?_, ?_, ?_⟩
  · intro w hzero r hr hrw
    rcases (mem_processText_word_list_iff setIter lemmatize segments wim r).mp hr
      with ⟨p, hp, hrec⟩
    have hwp : r.word = p.1 := word_of_mem_recordsFor _ _ _ _ hrec
    have hk : p.1 ∈ dictKeys (accumulate setIter
        (wim.word_list.map (fun x => x.word))
        (segments.map (fun x => (x.segment_id, lemmatize x.text)))) :=
      mem_dictKeys.mpr ⟨p.2, by cases p; exact hp⟩
    rw [mem_dictKeys_accumulate hperm] at hk
    rcases hk with ⟨_, q, hq, hql⟩
    rcases List.mem_map.mp hq with ⟨s, hs, rfl⟩
    have hcnt : 1 ≤ (lemmatize s.text).count p.1 := List.count_pos_iff.mpr hql
    have : (lemmatize s.text).count w = 0 := by
      have hall := List.sum_eq_zero_iff.mp hzero
      exact hall _ (List.mem_map.mpr ⟨s, hs, rfl⟩)
    rw [← hrw, hwp] at this
    omega
  · exact fun e he hocc =>
      record_exists_of_occurs setIter lemmatize segments wim hperm e he hocc
  · intro r hr
    rcases (mem_processText_word_list_iff setIter lemmatize segments wim r).mp hr
      with ⟨p, hp, hrec⟩
    have hp' : p ∈ (segments.map (fun x => (x.segment_id, lemmatize x.text))).foldl
        (accStep setIter (wim.word_list.map (fun e => e.word))) [] := hp
    have hinv := accumulate_invariant hperm
      (wim.word_list.map (fun e => e.word))
      (segments.map (fun s => s.segment_id))
      (segments.map (fun x => (x.segment_id, lemmatize x.text)))
      (by
        intro q hq
        rcases List.mem_map.mp hq with ⟨s, hs, rfl⟩
        exact List.mem_map.mpr ⟨s, hs, rfl⟩)
      [] (by simp) p hp'
    rcases (mem_recordsFor_iff _ _ _ _).mp hrec with ⟨wi, hwi, rfl⟩
    show ∃ q ∈ zeroFill p.2 (segments.map (fun s => s.segment_id)), 1 ≤ q.2
    cases hp2 : p.2 with
    | nil => exact absurd hp2 hinv.1
    | cons q0 rest =>
      have hq0 : 1 ≤ q0.2 ∧ q0.1 ∈ segments.map (fun s => s.segment_id) :=
        hinv.2 q0 (by rw [hp2]; exact List.mem_cons_self _ _)
      have hget : dictGet? (zeroFill (q0 :: rest)
          (segments.map (fun s => s.segment_id))) q0.1 = some q0.2 := by
        rw [dictGet?_zeroFill, if_pos hq0.2]
        simp [dictGet?]
      exact ⟨(q0.1, q0.2), mem_of_dictGet?_eq_some hget, hq0.1⟩

/-- C4: homograph fan-out — two word-list entries sharing the same surface
word both appear in the output when the word occurs, and any two records
for that word carry identical `segment_frequencies` and identical
`overall_frequency`; matching depends only on the surface word. -/
theorem c4_homograph_fanout (setIter : List String → List String)
    (lemmatize : String → List String) (segments : List Segment)
    (wim : WordInfoMeta) (hperm : ∀ l, List.Perm (setIter l) l)
    (e1 e2 : WordInfo) (he1 : e1 ∈ wim.word_list) (he2 : e2 ∈ wim.word_list)
    (hw : e1.word = e2.word)
    (hocc : ∃ s ∈ segments, e1.word ∈ lemmatize s.text) :
    (∃ r ∈ (processText setIter lemmatize segments wim).word_list,
        r.word = e1.word ∧ r.wikidata_ids = e1.wikidata_ids
          ∧ r.category = e1.category)
      ∧ (∃ r ∈ (processText setIter lemmatize segments wim).word_list,
          r.word = e2.word ∧ r.wikidata_ids = e2.wikidata_ids
            ∧ r.category = e2.category)
      ∧ ∀ r1 ∈ (processText setIter lemmatize segments wim).word_list,
          ∀ r2 ∈ (processText setIter lemmatize segments wim).word_list,
          r1.word = e1.word → r2.word = e1.word →
          r1.segment_frequencies = r2.segment_frequencies
            ∧ r1.overall_frequency = r2.overall_frequency := by
  refine ⟨record_exists_of_occurs setIter lemmatize segments wim hperm e1 he1 hocc,
    record_exists_of_occurs setIter lemmatize segments wim hperm e2 he2
      (hw ▸ hocc), ?_⟩
  intro r1 hr1 r2 hr2 hw1 hw2
  rcases (mem_processText_word_list_iff setIter lemmatize segments wim r1).mp hr1
    with ⟨p1, hp1, hrec1⟩
  rcases (mem_processText_word_list_iff setIter lemmatize segments wim r2).mp hr2
    with ⟨p2, hp2, hrec2⟩
  have hpw1 : r1.word = p1.1 := word_of_mem_recordsFor _ _ _ _ hrec1
  have hpw2 : r2.word = p2.1 := word_of_mem_recordsFor _ _ _ _ hrec2
  have hka := @nodup_dictKeys_accumulate setIter
    (wim.word_list.map (fun x => x.word))
    (segments.map (fun x => (x.segment_id, lemmatize x.text)))
  have hpeq : p1 = p2 := by
    apply eq_of_mem_of_fst_eq hka hp1 hp2
    rw [← hpw1, ← hpw2, hw1, hw2]
  rcases (mem_recordsFor_iff _ _ _ _).mp hrec1 with ⟨wi1, hwi1, rfl⟩
  rcases (mem_recordsFor_iff _ _ _ _).mp hrec2 with ⟨wi2, hwi2, rfl⟩
  rw [hpeq]
  exact ⟨rfl, rfl⟩

theorem map_proj_recordsFor (w2wi : List (String × List WordInfo))
    (ids : List String) (p : String × List (String × Nat)) :
    (recordsFor w2wi ids p).map
      (fun r => ({ word := r.word, wikidata_ids := r.wikidata_ids,
                   category := r.category } : WordInfo))
      = (dictGet? w2wi p.1).getD [] := by
  unfold recordsFor
  rw [List.map_map]
  have h : ∀ e ∈ (dictGet? w2wi p.1).getD [],
      ((fun r : WordInfoFrequency =>
          ({ word := r.word, wikidata_ids := r.wikidata_ids,
             category := r.category } : WordInfo)) ∘
        (fun word_info : WordInfo =>
          ({ word := word_info.word, wikidata_ids := word_info.wikidata_ids,
             category := word_info.category,
             segment_frequencies := zeroFill p.2 ids,
             overall_frequency := (p.2.map (fun q => q.2)).sum }
            : WordInfoFrequency))) e = e :=
    fun e _ => rfl
  rw [List.map_congr_left h]
  simp

theorem filter_flatten_recordsFor_not_mem (entries : List WordInfo)
    (ids : List String) (w : String) (A : List (String × List (String × Nat)))
    (hw : w ∉ dictKeys A) :
    ((A.map (recordsFor (buildWordToWordInfo entries) ids)).flatten).filter
      (fun r => r.word = w) = [] := by
  induction A with
  | nil => rfl
  | cons p t ih =>
    simp only [List.map_cons, List.flatten_cons, List.filter_append]
    have hp1 : p.1 ≠ w := by
      intro hh
      exact hw (by simp [hh])
    have hblock : (recordsFor (buildWordToWordInfo entries) ids p).filter
        (fun r => r.word = w) = [] := by
      rw [List.filter_eq_nil_iff]
      intro r hr
      have := word_of_mem_recordsFor entries ids p r hr
      simp [this, hp1]
    rw [hblock, ih (fun hm => hw (by simp [hm])), List.append_nil]

theorem filter_flatten_recordsFor_of_mem (entries : List WordInfo)
    (ids : List String) (w : String) (sub : List (String × Nat))
    (A : List (String × List (String × Nat)))
    (hnd : (dictKeys A).Nodup) (hmem : (w, sub) ∈ A) :
    ((A.map (recordsFor (buildWordToWordInfo entries) ids)).flatten).filter
      (fun r => r.word = w)
      = recordsFor (buildWordToWordInfo entries) ids (w, sub) := by
  induction A with
  | nil => simp at hmem
  | cons p t ih =>
    simp only [List.map_cons, List.flatten_cons, List.filter_append]
    rcases List.mem_cons.mp hmem with heq | hmem'
    · have hwt : w ∉ dictKeys t := by
        have h1 : p.1 ∉ dictKeys t := (List.nodup_cons.mp (by simpa using hnd)).1
        rw [← heq] at h1
        exact h1
      have hblock : (recordsFor (buildWordToWordInfo entries) ids p).filter
          (fun r => r.word = w) = recordsFor (buildWordToWordInfo entries) ids p := by
        rw [List.filter_eq_self]
        intro r hr
        have := word_of_mem_recordsFor entries ids p r hr
        rw [← heq] at this
        simp [this]
      rw [hblock, filter_flatten_recordsFor_not_mem entries ids w t hwt,
        List.append_nil, ← heq]
    · have hwk : w ∈ dictKeys t := mem_dictKeys.mpr ⟨sub, hmem'⟩
      have hp1 : p.1 ≠ w := by
        intro hh
        exact (List.nodup_cons.mp (by simpa using hnd)).1 (hh ▸ hwk)
      have hblock : (recordsFor (buildWordToWordInfo entries) ids p).filter
          (fun r => r.word = w) = [] := by
        rw [List.filter_eq_nil_iff]
        intro r hr
        have := word_of_mem_recordsFor entries ids p r hr
        simp [this, hp1]
      rw [hblock, ih (List.nodup_cons.mp (by simpa using hnd)).2 hmem']
      simp

/-- C9: grouping preserves word-list order — for a word `w` that occurs and
is matched, the records emitted for `w`, projected back to their static
fields, are exactly the word-list entries carrying `w` in their original
relative order. -/
theorem c9_group_order (setIter : List String → List String)
    (lemmatize : String → List String) (segments : List Segment)
    (wim : WordInfoMeta) (hperm : ∀ l, List.Perm (setIter l) l) (w : String)
    (hocc : ∃ s ∈ segments, w ∈ lemmatize s.text) :
    (((processText setIter lemmatize segments wim).word_list.filter
        (fun r => r.word = w)).map
      (fun r => ({ word := r.word, wikidata_ids := r.wikidata_ids,
                   category := r.category } : WordInfo)))
      = wim.word_list.filter (fun e => e.word = w) := by
  rw [processText_word_list]
  by_cases hwu : w ∈ wim.word_list.map (fun e => e.word)
  · have hk : w ∈ dictKeys (accumulate setIter
        (wim.word_list.map (fun e => e.word))
        (segments.map (fun s => (s.segment_id, lemmatize s.text)))) := by
      rw [mem_dictKeys_accumulate hperm]
      rcases hocc with ⟨s, hs, hsl⟩
      exact ⟨hwu, (s.segment_id, lemmatize s.text), List.mem_map.mpr ⟨s, hs, rfl⟩, hsl⟩
    rcases mem_dictKeys.mp hk with ⟨sub, hsub⟩
    rw [filter_flatten_recordsFor_of_mem _ _ _ sub _
      (nodup_dictKeys_accumulate _ _) hsub]
    rw [map_proj_recordsFor]
    have hne : wim.word_list.filter (fun e => e.word = w) ≠ [] := by
      rcases List.mem_map.mp hwu with ⟨e, he, hew⟩
      have hmem : e ∈ wim.word_list.filter (fun x => x.word = w) :=
        List.mem_filter.mpr ⟨he, by simp [hew]⟩
      intro hnil
      rw [hnil] at hmem
      simp at hmem
    show (dictGet? (buildWordToWordInfo wim.word_list) w).getD [] = _
    rw [dictGet?_buildWordToWordInfo, if_neg hne]
    rfl
  · have hk : w ∉ dictKeys (accumulate setIter
        (wim.word_list.map (fun e => e.word))
        (segments.map (fun s => (s.segment_id, lemmatize s.text)))) := by
      rw [mem_dictKeys_accumulate hperm]
      intro hc
      exact hwu hc.1
    rw [filter_flatten_recordsFor_not_mem _ _ _ _ hk]
    simp only [List.map_nil]
    symm
    rw [List.filter_eq_nil_iff]
    intro e he hew
    apply hwu
    simp only [decide_eq_true_eq] at hew
    exact List.mem_map.mpr ⟨e, he, hew⟩

theorem filter_or_eq_replicate_left {l : List String} {u v : String}
    (huv : u ≠ v) (hv : v ∉ l) :
    l.filter (fun x => x = u || x = v) = List.replicate (l.count u) u := by
  induction l with
  | nil => rfl
  | cons x t ih =>
    have hvt : v ∉ t := fun h => hv (List.mem_cons_of_mem _ h)
    rw [List.filter_cons]
    by_cases hx : x = u
    · subst hx
      rw [if_pos (by simp), List.count_cons_self, ih hvt]
      rfl
    · have hxv : x ≠ v := fun h => hv (by rw [← h]; exact List.mem_cons_self _ _)
      rw [if_neg (by simp [hx, hxv]), List.count_cons_of_ne (fun h => hx h.symm)]
      exact ih hvt

theorem filter_or_eq_replicate_right {l : List String} {u v : String}
    (hu : u ∉ l) :
    l.filter (fun x => x = u || x = v) = List.replicate (l.count v) v := by
  induction l with
  | nil => rfl
  | cons x t ih =>
    have hut : u ∉ t := fun h => hu (List.mem_cons_of_mem _ h)
    have hxu : x ≠ u := fun h => hu (by rw [← h]; exact List.mem_cons_self _ _)
    rw [List.filter_cons]
    by_cases hx : x = v
    · subst hx
      rw [if_pos (by simp), List.count_cons_self, ih hut]
      rfl
    · rw [if_neg (by simp [hxu, hx]), List.count_cons_of_ne (fun h => hx h.symm)]
      exact ih hut

theorem word_mem_keys_of_mem_flatten (entries : List WordInfo) (ids : List String)
    (A : List (String × List (String × Nat))) (r : WordInfoFrequency)
    (hr : r ∈ (A.map (recordsFor (buildWordToWordInfo entries) ids)).flatten) :
    r.word ∈ dictKeys A := by
  rcases List.mem_flatten.mp hr with ⟨l, hl, hrl⟩
  rcases List.mem_map.mp hl with ⟨p, hp, rfl⟩
  rw [word_of_mem_recordsFor entries ids p r hrl]
  exact mem_dictKeys.mpr ⟨p.2, by cases p; exact hp⟩

/-- C5: order law — if the first occurrence of matched word `u` is in an
earlier segment than every occurrence of matched word `v`, then every
record for `u` precedes every record for `v` in the output: restricting the
output word sequence to `u`s and `v`s yields all the `u`s followed by all
the `v`s. -/
theorem c5_order_law (setIter : List String → List String)
    (lemmatize : String → List String) (segments : List Segment)
    (wim : WordInfoMeta) (hperm : ∀ l, List.Perm (setIter l) l)
    (u v : String)
    (hu_uw : u ∈ wim.word_list.map (fun e => e.word))
    (hv_uw : v ∈ wim.word_list.map (fun e => e.word))
    (i : Nat) (hi : i < segments.length)
    (hu_occ : u ∈ lemmatize (segments.get ⟨i, hi⟩).text)
    (hv_not : ∀ k, ∀ hk : k < segments.length, k ≤ i →
        v ∉ lemmatize (segments.get ⟨k, hk⟩).text)
    (hv_occ : ∃ s ∈ segments, v ∈ lemmatize s.text) :
    (((processText setIter lemmatize segments wim).word_list.map
        (fun r => r.word)).filter (fun x => x = u || x = v))
      = List.replicate (((processText setIter lemmatize segments wim).word_list.map
            (fun r => r.word)).count u) u
        ++ List.replicate (((processText setIter lemmatize segments wim).word_list.map
            (fun r => r.word)).count v) v := by
  have hlen : i < (segments.map (fun s => (s.segment_id, lemmatize s.text))).length := by
    simpa using hi
  have hu1 : u ∈ dictKeys (accumulate setIter (wim.word_list.map (fun e => e.word))
      ((segments.map (fun s => (s.segment_id, lemmatize s.text))).take (i + 1))) := by
    rw [mem_dictKeys_accumulate hperm]
    refine ⟨hu_uw, (segments.map (fun s => (s.segment_id, lemmatize s.text))).get
      ⟨i, hlen⟩, ?_, ?_⟩
    · have h1 : i < ((segments.map
          (fun s => (s.segment_id, lemmatize s.text))).take (i + 1)).length := by
        rw [List.length_take]
        omega
      have h2 : ((segments.map (fun s => (s.segment_id, lemmatize s.text))).take
          (i + 1)).get ⟨i, h1⟩ = (segments.map
            (fun s => (s.segment_id, lemmatize s.text))).get ⟨i, hlen⟩ := by
        simp [List.getElem_take]
      rw [← h2]
      exact List.get_mem _ _ _
    · have h3 : (segments.map (fun s => (s.segment_id, lemmatize s.text))).get
          ⟨i, hlen⟩ = ((segments.get ⟨i, hi⟩).segment_id,
            lemmatize (segments.get ⟨i, hi⟩).text) := by
        simp
      rw [h3]
      exact hu_occ
  have hv1 : v ∉ dictKeys (accumulate setIter (wim.word_list.map (fun e => e.word))
      ((segments.map (fun s => (s.segment_id, lemmatize s.text))).take (i + 1))) := by
    rw [mem_dictKeys_accumulate hperm]
    rintro ⟨_, q, hq, hql⟩
    rcases List.mem_iff_getElem.mp hq with ⟨k, hk, hkq⟩
    have hk1 : k < segments.length := by
      rw [List.length_take, List.length_map] at hk
      omega
    have hki : k ≤ i := by
      rw [List.length_take] at hk
      omega
    have hkq2 : q = ((segments.get ⟨k, hk1⟩).segment_id,
        lemmatize (segments.get ⟨k, hk1⟩).text) := by
      rw [← hkq]
      rw [List.getElem_take]
      simp
    rw [hkq2] at hql
    exact hv_not k hk1 hki hql
  have hvA : v ∈ dictKeys (accumulate setIter (wim.word_list.map (fun e => e.word))
      (segments.map (fun s => (s.segment_id, lemmatize s.text)))) := by
    rw [mem_dictKeys_accumulate hperm]
    rcases hv_occ with ⟨s, hs, hsl⟩
    exact ⟨hv_uw, (s.segment_id, lemmatize s.text), List.mem_map.mpr ⟨s, hs, rfl⟩, hsl⟩
  have huv : u ≠ v := fun h => hv1 (h ▸ hu1)
  have hA : accumulate setIter (wim.word_list.map (fun e => e.word))
      (segments.map (fun s => (s.segment_id, lemmatize s.text)))
      = ((segments.map (fun s => (s.segment_id, lemmatize s.text))).drop (i + 1)).foldl
          (accStep setIter (wim.word_list.map (fun e => e.word)))
          (accumulate setIter (wim.word_list.map (fun e => e.word))
            ((segments.map (fun s => (s.segment_id, lemmatize s.text))).take (i + 1))) := by
    unfold accumulate
    conv_lhs => rw [← List.take_append_drop (i + 1)
      (segments.map (fun s => (s.segment_id, lemmatize s.text)))]
    rw [List.foldl_append]
  obtain ⟨tl, htl⟩ : ∃ tl, dictKeys (accumulate setIter
      (wim.word_list.map (fun e => e.word))
      (segments.map (fun s => (s.segment_id, lemmatize s.text))))
      = dictKeys (accumulate setIter (wim.word_list.map (fun e => e.word))
          ((segments.map (fun s => (s.segment_id, lemmatize s.text))).take (i + 1)))
        ++ tl := by
    rw [hA]
    exact dictKeys_foldl_accStep_extend _ _ _
  have hndA : (dictKeys (accumulate setIter (wim.word_list.map (fun e => e.word))
      (segments.map (fun s => (s.segment_id, lemmatize s.text))))).Nodup :=
    nodup_dictKeys_accumulate _ _
  have hvtl : v ∈ tl := by
    rw [htl] at hvA
    rcases List.mem_append.mp hvA with h | h
    · exact absurd h hv1
    · exact h
  have hutl : u ∉ tl := by
    rw [htl] at hndA
    rcases List.nodup_append.mp hndA with ⟨_, _, hdisj⟩
    exact fun h => hdisj hu1 h
  -- split the accumulated dictionary at the length of the prefix keys
  rw [processText_word_list]
  rw [← List.take_append_drop ((dictKeys (accumulate setIter
      (wim.word_list.map (fun e => e.word))
      ((segments.map (fun s => (s.segment_id, lemmatize s.text))).take (i + 1)))).length)
    (accumulate setIter (wim.word_list.map (fun e => e.word))
      (segments.map (fun s => (s.segment_id, lemmatize s.text))))]
  rw [List.map_append, List.flatten_append, List.map_append]
  have hKtake : dictKeys ((accumulate setIter (wim.word_list.map (fun e => e.word))
      (segments.map (fun s => (s.segment_id, lemmatize s.text)))).take
        ((dictKeys (accumulate setIter (wim.word_list.map (fun e => e.word))
          ((segments.map (fun s => (s.segment_id, lemmatize s.text))).take
            (i + 1)))).length))
      = dictKeys (accumulate setIter (wim.word_list.map (fun e => e.word))
          ((segments.map (fun s => (s.segment_id, lemmatize s.text))).take (i + 1))) := by
    unfold dictKeys
    rw [List.map_take]
    show (dictKeys (accumulate setIter (wim.word_list.map (fun e => e.word))
      (segments.map (fun s => (s.segment_id, lemmatize s.text))))).take _ = _
    rw [htl]
    exact List.take_left _ _
  have hKdrop : dictKeys ((accumulate setIter (wim.word_list.map (fun e => e.word))
      (segments.map (fun s => (s.segment_id, lemmatize s.text)))).drop
        ((dictKeys (accumulate setIter (wim.word_list.map (fun e => e.word))
          ((segments.map (fun s => (s.segment_id, lemmatize s.text))).take
            (i + 1)))).length)) = tl := by
    unfold dictKeys
    rw [List.map_drop]
    show (dictKeys (accumulate setIter (wim.word_list.map (fun e => e.word))
      (segments.map (fun s => (s.segment_id, lemmatize s.text))))).drop _ = _
    rw [htl]
    exact List.drop_left _ _
  have hvW1 : v ∉ (((accumulate setIter (wim.word_list.map (fun e => e.word))
      (segments.map (fun s => (s.segment_id, lemmatize s.text)))).take
        ((dictKeys (accumulate setIter (wim.word_list.map (fun e => e.word))
          ((segments.map (fun s => (s.segment_id, lemmatize s.text))).take
            (i + 1)))).length)).map
        (recordsFor (buildWordToWordInfo wim.word_list)
          (segments.map (fun s => s.segment_id)))).flatten.map (fun r => r.word) := by
    intro hmem
    rcases List.mem_map.mp hmem with ⟨r, hr, hrw⟩
    have := word_mem_keys_of_mem_flatten _ _ _ _ hr
    rw [hrw, hKtake] at this
    exact hv1 this
  have huW2 : u ∉ (((accumulate setIter (wim.word_list.map (fun e => e.word))
      (segments.map (fun s => (s.segment_id, lemmatize s.text)))).drop
        ((dictKeys (accumulate setIter (wim.word_list.map (fun e => e.word))
          ((segments.map (fun s => (s.segment_id, lemmatize s.text))).take
            (i + 1)))).length)).map
        (recordsFor (buildWordToWordInfo wim.word_list)
          (segments.map (fun s => s.segment_id)))).flatten.map (fun r => r.word) := by
    intro hmem
    rcases List.mem_map.mp hmem with ⟨r, hr, hrw⟩
    have := word_mem_keys_of_mem_flatten _ _ _ _ hr
    rw [hrw, hKdrop] at this
    exact hutl this
  rw [List.filter_append, List.count_append, List.count_append]
  rw [filter_or_eq_replicate_right huW2, filter_or_eq_replicate_left huv hvW1]
  rw [List.count_eq_zero.mpr huW2, List.count_eq_zero.mpr hvW1]
  simp

/-- C10: the `metadata` field of the value returned by `process_text` is the
`metadata` field of the parsed word-list resource, passed through unchanged
(source line 167). -/
theorem c10_metadata_passthrough (setIter : List String → List String)
    (lemmatize : String → List String) (segments : List Segment)
    (word_info_meta : WordInfoMeta) :
    (processText setIter lemmatize segments word_info_meta).metadata
      = word_info_meta.metadata := rfl

/-- C6: determinism — two runs of `process_text` on identical inputs
(identical segments, word list, lemma sequences, and the same per-process
set iteration order) produce identical outputs, including the order of
records and the key order of every `segment_frequencies` mapping. -/
theorem c6_determinism (setIter1 setIter2 : List String → List String)
    (lemmatize1 lemmatize2 : String → List String)
    (segments1 segments2 : List Segment) (wim1 wim2 : WordInfoMeta)
    (h1 : setIter1 = setIter2) (h2 : lemmatize1 = lemmatize2)
    (h3 : segments1 = segments2) (h4 : wim1 = wim2) :
    processText setIter1 lemmatize1 segments1 wim1
      = processText setIter2 lemmatize2 segments2 wim2 := by
  rw [h1, h2, h3, h4]

/-- C7: an empty segments list or an empty word list is not an error: the
output `word_list` is empty (no `WordInfoFrequency` record is emitted). -/
theorem c7_empty_inputs (setIter : List String → List String)
    (lemmatize : String → List String) (segments : List Segment)
    (wim : WordInfoMeta) (hperm : ∀ l, List.Perm (setIter l) l)
    (h : segments = [] ∨ wim.word_list = []) :
    (processText setIter lemmatize segments wim).word_list = [] := by
  rw [processText_word_list]
  rcases h with h | h
  · subst h
    simp [accumulate]
  · rw [h]
    simp only [List.map_nil]
    rw [accumulate_nil_uw hperm]
    simp

/-- C8: the per-segment counting step (lines 133-146 applied to one segment,
starting from an empty accumulator) records exactly the vocabulary words
occurring in the segment's lemma token sequence, each mapped under the
segment id to its exact occurrence count, which is positive; all other
words are absent.  Matching is exact string equality. -/
theorem c8_segment_counting (setIter : List String → List String)
    (hperm : ∀ l, List.Perm (setIter l) l) (uw : List String) (sid : String)
    (lem : List String) (w : String) :
    (dictGet? (saveFrequencies sid lem [] (segmentIntersect setIter uw lem)) w
        = if w ∈ uw ∧ w ∈ lem then some [(sid, lem.count w)] else none)
      ∧ (w ∈ lem → 1 ≤ lem.count w) := by
  constructor
  · rw [dictGet?_saveFrequencies _ _ _ _ (nodup_segmentIntersect hperm _ _)]
    by_cases hw : w ∈ segmentIntersect setIter uw lem
    · rcases (mem_segmentIntersect hperm _ _ _).mp hw with ⟨hwl, hwu⟩
      rw [if_pos hw, if_pos ⟨hwu, hwl⟩]
      simp [dictGet?, dictInsert]
    · rw [if_neg hw,
        if_neg (fun hc => hw ((mem_segmentIntersect hperm _ _ _).mpr ⟨hc.2, hc.1⟩))]
      simp [dictGet?]
  · exact fun h => List.count_pos_iff.mpr h

theorem c1_zero_fill_witness :
    dictKeys birchRec.segment_frequencies = segsC.map (fun s => s.segment_id)
      ∧ ∀ s ∈ segsC, birchRec.word ∉ lemTable s.text →
          dictGet? birchRec.segment_frequencies s.segment_id = some 0 :=
  c1_zero_fill id lemTable segsC wimC (fun l => List.Perm.refl l) (by decide)
    birchRec (by decide)

theorem c2_conservation_witness :
    oakRecQ1.overall_frequency
        = (oakRecQ1.segment_frequencies.map (fun q => q.2)).sum
      ∧ oakRecQ1.overall_frequency
          = (segsC.map (fun s => (lemTable s.text).count oakRecQ1.word)).sum :=
  c2_conservation id lemTable segsC wimC (fun l => List.Perm.refl l) (by decide)
    oakRecQ1 (by decide)

theorem c3_omission_witness :
    (∀ w : String,
        (segsC.map (fun s => (lemTable s.text).count w)).sum = 0 →
        ∀ r ∈ (processText id lemTable segsC wimC).word_list, r.word ≠ w)
      ∧ (∀ e ∈ wimC.word_list, (∃ s ∈ segsC, e.word ∈ lemTable s.text) →
          ∃ r ∈ (processText id lemTable segsC wimC).word_list,
            r.word = e.word ∧ r.wikidata_ids = e.wikidata_ids
              ∧ r.category = e.category)
      ∧ (∀ r ∈ (processText id lemTable segsC wimC).word_list,
          ∃ q ∈ r.segment_frequencies, 1 ≤ q.2) :=
  c3_omission id lemTable segsC wimC (fun l => List.Perm.refl l)

theorem c4_homograph_fanout_witness :
    (∃ r ∈ (processText id lemTable segsC wimC).word_list,
        r.word = oakQ1.word ∧ r.wikidata_ids = oakQ1.wikidata_ids
          ∧ r.category = oakQ1.category)
      ∧ (∃ r ∈ (processText id lemTable segsC wimC).word_list,
          r.word = oakQ3.word ∧ r.wikidata_ids = oakQ3.wikidata_ids
            ∧ r.category = oakQ3.category)
      ∧ ∀ r1 ∈ (processText id lemTable segsC wimC).word_list,
          ∀ r2 ∈ (processText id lemTable segsC wimC).word_list,
          r1.word = oakQ1.word → r2.word = oakQ1.word →
          r1.segment_frequencies = r2.segment_frequencies
            ∧ r1.overall_frequency = r2.overall_frequency :=
  c4_homograph_fanout id lemTable segsC wimC (fun l => List.Perm.refl l)
    oakQ1 oakQ3 (by decide) (by decide) rfl
    ⟨{ text := "t1", segment_id := "s1" }, by decide, by decide⟩

theorem c5_order_law_witness :
    (((processText id lemTable segsC wimC).word_list.map
        (fun r => r.word)).filter (fun x => x = "oak" || x = "birch"))
      = List.replicate (((processText id lemTable segsC wimC).word_list.map
            (fun r => r.word)).count "oak") "oak"
        ++ List.replicate (((processText id lemTable segsC wimC).word_list.map
            (fun r => r.word)).count "birch") "birch" :=
  c5_order_law id lemTable segsC wimC (fun l => List.Perm.refl l) "oak" "birch"
    (by decide) (by decide) 0 (by decide) (by decide)
    (fun k hk hki => by
      have hk0 : k = 0 := Nat.le_zero.mp hki
      subst hk0
      have hget : segsC.get ⟨0, hk⟩ = { text := "t1", segment_id := "s1" } := rfl
      rw [hget]
      decide)
    ⟨{ text := "t2", segment_id := "s2" }, by decide, by decide⟩

theorem c6_determinism_witness :
    processText id lemTable segsC wimC = processText id lemTable segsC wimC :=
  c6_determinism id id lemTable lemTable segsC segsC wimC wimC rfl rfl rfl rfl

theorem c7_empty_inputs_witness :
    (processText id lemTable [] wimC).word_list = [] :=
  c7_empty_inputs id lemTable [] wimC (fun l => List.Perm.refl l) (Or.inl rfl)

theorem c8_segment_counting_witness :
    (dictGet? (saveFrequencies "s1" ["the", "oak", "fall"] []
        (segmentIntersect id ["oak", "pine", "oak", "birch"]
          ["the", "oak", "fall"])) "oak"
        = if "oak" ∈ (["oak", "pine", "oak", "birch"] : List String)
              ∧ "oak" ∈ (["the", "oak", "fall"] : List String)
          then some [("s1", (["the", "oak", "fall"] : List String).count "oak")]
          else none)
      ∧ ("oak" ∈ (["the", "oak", "fall"] : List String) →
          1 ≤ (["the", "oak", "fall"] : List String).count "oak") :=
  c8_segment_counting id (fun l => List.Perm.refl l)
    ["oak", "pine", "oak", "birch"] "s1" ["the", "oak", "fall"] "oak"

theorem c9_group_order_witness :
    (((processText id lemTable segsC wimC).word_list.filter
        (fun r => r.word = "oak")).map
      (fun r => ({ word := r.word, wikidata_ids := r.wikidata_ids,
                   category := r.category } : WordInfo)))
      = wimC.word_list.filter (fun e => e.word = "oak") :=
  c9_group_order id lemTable segsC wimC (fun l => List.Perm.refl l) "oak"
    ⟨{ text := "t1", segment_id := "s1" }, by decide, by decide⟩

end Extractor
